import Mathlib

/-!
BinanceExporter: a shallow embedding of `main.go`.

The exporter answers every scrape of `/metrics` by resolving the tracked
symbols (`getSymbols`), fetching their prices upstream (`fetchPrices`),
publishing them to a gauge vector (`updateMetrics`) and handing the response
over to the exposition handler (`metricsHandler`).

Go strings are modelled by `String` (text that is valid UTF-8), Go errors by
the text of their `Error()` method, and an upstream response by its status and
its whole body.  Everything the program reaches outside itself (the process
environment, the transport, library routines whose result no statement below
depends on) is a field of `World`, so the statements hold whatever these do;
the library routines whose behaviour the statements do depend on
(`strings.Split`, the decoder of `encoding/json`, `http.Error`, the
`ResponseWriter`) are modelled as definitions.  The server loop of `main` and
the release of the response body are not modelled.
-/

set_option autoImplicit false
set_option linter.dupNamespace false

namespace BinanceExporter

/-! ## Data model -/

/-- The `Price` struct of `main.go`: one decoded upstream record; both fields are strings. -/
structure Price where
  Symbol : String
  Price : String
  deriving DecidableEq, Repr

/-- The fields of `http.Response` that `fetchPrices` reads. -/
structure Response where
  Status : String
  StatusCode : Nat
  Body : String
  deriving DecidableEq, Repr

/-- The part of an inbound `http.Request` that is handed on to the exposition handler. -/
structure Request where
  Method : String
  Header : List (String × String)
  deriving DecidableEq, Repr

/-- Errors of `json.Decoder.Decode` into a `[]Price`, by kind. -/
inductive JsonError where
  /-- The `io.EOF` error: the body holds no value at all. -/
  | eof
  /-- The `io.ErrUnexpectedEOF` error: the body ends inside a value. -/
  | unexpectedEOF
  /-- A `json.SyntaxError`: the scanner rejected a byte. -/
  | syntaxError
  /-- A `json.UnmarshalTypeError`: JSON value of kind `value` met a Go value of type `goType`;
  `goField` names the struct field the value was meant for, and is empty for a value that is
  not inside a struct. -/
  | unmarshalType (value : String) (goType : String) (goField : String)
  deriving DecidableEq, Repr

/-- What the program reaches outside itself.  `F` is the type of `float64` values. -/
structure World (F : Type) where
  /-- The process environment (`os.LookupEnv`): `none` for a variable that is unset. -/
  Environ : String → Option String
  /-- Library `json.Marshal` on a `[]string`. -/
  Marshal : List String → Except String String
  /-- Library `url.QueryEscape`. -/
  QueryEscape : String → String
  /-- Library `http.Get`: the transport; an error carries its text. -/
  Get : String → Except String Response
  /-- Library `strconv.ParseFloat(·, 64)`; an error carries its text. -/
  ParseFloat : String → Except String F
  /-- The `Error()` text of a decoding error. -/
  JsonErrorText : JsonError → String
  /-- The exposition renderer behind `promhttp.Handler()`: the body it writes for a request,
  given the children of `priceGauge`. -/
  Gather : Request → (String → Option F) → String
  /-- The content type the exposition handler negotiates for a request. -/
  ExpositionType : Request → String

/-- The mutable state of the process: the children of the gauge vector `priceGauge` by the
value of their `symbol` label (`none` for a label without a child), the lines written to
standard output, and a ghost counter of the calls of the exposition handler. -/
structure State (F : Type) where
  priceGauge : String → Option F
  stdout : List String
  served : Nat

/-- An `http.ResponseWriter`: the status code once the header has been written, the content
type set in the header, and the body written so far. -/
structure ResponseWriter where
  code : Option Nat
  contentType : Option String
  body : String
  deriving DecidableEq, Repr

/-! ## `strings.Split` with a one-byte separator -/

/-- Go `strings.IndexByte`: position of the first `sep` in `s`, `none` where Go returns `-1`. -/
def IndexByte : List Char → Char → Option Nat
  | [], _ => none
  | c :: cs, sep => if c = sep then some 0 else (IndexByte cs sep).map (· + 1)

/-- Go `strings.Count` for a one-byte separator. -/
def Count (s : List Char) (sep : Char) : Nat :=
  s.count sep

/-- The loop of Go `genSplit`: `n` is the number of iterations still allowed
(`for i < n`), `s` the unread rest; the last piece is the rest itself. -/
def genSplitLoop (sep : Char) : Nat → List Char → List (List Char)
  | 0, s => [s]
  | n + 1, s =>
    match IndexByte s sep with
    | none => [s]
    | some m => s.take m :: genSplitLoop sep n (s.drop (m + 1))

/-- Go `genSplit(s, sep, 0, -1)` for a one-byte `sep`: `n = Count(s, sep) + 1`, clamped to
`len(s) + 1`, pieces are cut at each occurrence of `sep`. -/
def genSplit (s : List Char) (sep : Char) : List (List Char) :=
  let n := Count s sep + 1
  let n := if n > s.length + 1 then s.length + 1 else n
  genSplitLoop sep (n - 1) s

/-- Go `strings.Split(s, sep)` for a one-byte separator `sep`. -/
def Split (s : String) (sep : Char) : List String :=
  (genSplit s.data sep).map String.mk

/-! ## Config resolver -/

/-- Go `os.Getenv`: the value of the variable, `""` when it is unset. -/
def Getenv {F : Type} (W : World F) (key : String) : String :=
  match W.Environ key with
  | some v => v
  | none => ""

/-- Transcription of `getSymbols` (main.go 33-39). -/
def getSymbols {F : Type} (W : World F) : List String :=
  let symbolsEnv := Getenv W "SYMBOLS"
  if symbolsEnv = "" then
    ["BTCUSDT", "ETHUSDT", "BNBUSDT"]
  else
    Split symbolsEnv ','

/-! ## The decoder of `encoding/json`, as far as decoding into a `[]Price` goes -/

/-- A JSON value as the decoder sees it.  A number carries no payload: no number decodes
into a `[]Price`. -/
inductive Json where
  | null
  | bool (b : Bool)
  | number
  | string (s : String)
  | array (elems : List Json)
  | object (members : List (String × Json))

/-- The scanner's `isSpace`. -/
def isSpace (c : Char) : Bool :=
  c = ' ' || c = '\t' || c = '\r' || c = '\n'

/-- Drop the leading white space (`scanSkipSpace`). -/
def skipSpace : List Char → List Char
  | [] => []
  | c :: cs => if isSpace c then skipSpace cs else c :: cs

/-- Decimal digit test of the scanner. -/
def isDigit (c : Char) : Bool :=
  decide (48 ≤ c.toNat ∧ c.toNat ≤ 57)

/-- Drop the leading decimal digits. -/
def skipDigits : List Char → List Char
  | [] => []
  | c :: cs => if isDigit c then skipDigits cs else c :: cs

/-- Value of a hexadecimal digit (either case), as in the loop of Go `getu4`; the digits are
compared by their byte values. -/
def hexVal (c : Char) : Option Nat :=
  let n := c.toNat
  if isDigit c then some (n - 48)
  else if 97 ≤ n ∧ n ≤ 102 then some (n - 87)
  else if 65 ≤ n ∧ n ≤ 70 then some (n - 55)
  else none

/-- Go `getu4`: the number four hexadecimal digits denote, `none` where Go returns `-1`. -/
def hex4 (x y z w : Char) : Option Nat :=
  match hexVal x, hexVal y, hexVal z, hexVal w with
  | some a, some b, some c, some d => some (((a * 16 + b) * 16 + c) * 16 + d)
  | _, _, _, _ => none

/-- The body of a string literal after its opening quote: the UTF-16 code units (code points
for literal characters) it denotes, in reverse in `acc`, and the input after the closing
quote.  Control characters, unknown escapes and a `\u` without four hexadecimal digits are
syntax errors; input that ends before the closing quote is an unexpected EOF. -/
def scanString : List Char → List Nat → Except JsonError (List Nat × List Char)
  | [], _ => .error .unexpectedEOF
  | c :: cs, acc =>
    if c = '"' then .ok (acc.reverse, cs)
    else if c = '\\' then
      match cs with
      | [] => .error .unexpectedEOF
      | e :: cs' =>
        if e = 'u' then
          match cs' with
          | x :: y :: z :: w :: rest =>
            match hex4 x y z w with
            | some u => scanString rest (u :: acc)
            | none => .error .syntaxError
          | short =>
            if short.all (fun h => (hexVal h).isSome) then .error .unexpectedEOF
            else .error .syntaxError
        else if e = 'b' then scanString cs' (8 :: acc)
        else if e = 'f' then scanString cs' (12 :: acc)
        else if e = 'n' then scanString cs' (10 :: acc)
        else if e = 'r' then scanString cs' (13 :: acc)
        else if e = 't' then scanString cs' (9 :: acc)
        else if e = '\\' || e = '/' || e = '"' then scanString cs' (e.toNat :: acc)
        else .error .syntaxError
    else if c.toNat < 32 then .error .syntaxError
    else scanString cs (c.toNat :: acc)

/-- The Go `unquote` step on code units: a high surrogate directly followed by a low one is
one character, any other surrogate is U+FFFD.  `pending` is a high surrogate just read. -/
def utf16Decode : Option Nat → List Nat → List Char
  | none, [] => []
  | some _, [] => [Char.ofNat 0xFFFD]
  | none, u :: us =>
    if 0xD800 ≤ u ∧ u < 0xDC00 then utf16Decode (some u) us
    else if 0xDC00 ≤ u ∧ u < 0xE000 then Char.ofNat 0xFFFD :: utf16Decode none us
    else Char.ofNat u :: utf16Decode none us
  | some h, u :: us =>
    if 0xDC00 ≤ u ∧ u < 0xE000 then
      Char.ofNat (0x10000 + (h - 0xD800) * 0x400 + (u - 0xDC00)) :: utf16Decode none us
    else if 0xD800 ≤ u ∧ u < 0xDC00 then Char.ofNat 0xFFFD :: utf16Decode (some u) us
    else Char.ofNat 0xFFFD :: Char.ofNat u :: utf16Decode none us

/-- The Go string a string literal denotes, from its code units. -/
def unquote (us : List Nat) : String :=
  String.mk (utf16Decode none us)

/-- A fixed literal (`true`, `false`, `null`) after its first byte. -/
def scanLiteral : List Char → List Char → Except JsonError (List Char)
  | [], cs => .ok cs
  | _ :: _, [] => .error .unexpectedEOF
  | e :: es, c :: cs => if c = e then scanLiteral es cs else .error .syntaxError

/-- At least one digit, then all digits that follow (scanner states `stateDot` and
`stateESign`). -/
def scanDigits1 : List Char → Except JsonError (List Char)
  | [] => .error .unexpectedEOF
  | c :: cs => if isDigit c then .ok (skipDigits cs) else .error .syntaxError

/-- The exponent of a number, if one follows. -/
def scanExponent : List Char → Except JsonError (List Char)
  | [] => .ok []
  | c :: cs =>
    if c = 'e' || c = 'E' then
      match cs with
      | [] => .error .unexpectedEOF
      | s :: cs' => if s = '+' || s = '-' then scanDigits1 cs' else scanDigits1 cs
    else .ok (c :: cs)

/-- The fraction and the exponent of a number, if they follow. -/
def scanFraction : List Char → Except JsonError (List Char)
  | [] => .ok []
  | c :: cs =>
    if c = '.' then
      match scanDigits1 cs with
      | .error err => .error err
      | .ok rest => scanExponent rest
    else scanExponent (c :: cs)

/-- The integer part of a number after an optional sign: `0`, or a nonzero digit and the
digits after it; then fraction and exponent. -/
def scanInteger : List Char → Except JsonError (List Char)
  | [] => .error .unexpectedEOF
  | c :: cs =>
    if c = '0' then scanFraction cs
    else if isDigit c then scanFraction (skipDigits cs)
    else .error .syntaxError

/-- Go `maxNestingDepth` of the scanner. -/
def maxNestingDepth : Nat := 10000

mutual

/-- One JSON value at the head of the input (after white space), and the input after it.
`depth` counts the arrays and objects that are open.  `fuel` bounds the nesting of the calls;
the result does not depend on it once it exceeds twice the length of the input
(`scan_fuel`). -/
def scanValue : Nat → Nat → List Char → Except JsonError (Json × List Char)
  | 0, _, _ => .error .syntaxError
  | fuel + 1, depth, cs =>
    match skipSpace cs with
    | [] => .error .unexpectedEOF
    | c :: rest =>
      if c = '[' then
        if depth ≥ maxNestingDepth then .error .syntaxError
        else
          match skipSpace rest with
          | [] => .error .unexpectedEOF
          | d :: rest' =>
            if d = ']' then .ok (.array [], rest')
            else scanElems fuel (depth + 1) (d :: rest') []
      else if c = '\x7b' then
        if depth ≥ maxNestingDepth then .error .syntaxError
        else
          match skipSpace rest with
          | [] => .error .unexpectedEOF
          | d :: rest' =>
            if d = '\x7d' then .ok (.object [], rest')
            else scanMembers fuel (depth + 1) (d :: rest') []
      else if c = '"' then
        match scanString rest [] with
        | .error err => .error err
        | .ok (us, rest') => .ok (.string (unquote us), rest')
      else if c = '-' then
        match scanInteger rest with
        | .error err => .error err
        | .ok rest' => .ok (.number, rest')
      else if isDigit c then
        match scanInteger (c :: rest) with
        | .error err => .error err
        | .ok rest' => .ok (.number, rest')
      else if c = 't' then
        match scanLiteral ['r', 'u', 'e'] rest with
        | .error err => .error err
        | .ok rest' => .ok (.bool true, rest')
      else if c = 'f' then
        match scanLiteral ['a', 'l', 's', 'e'] rest with
        | .error err => .error err
        | .ok rest' => .ok (.bool false, rest')
      else if c = 'n' then
        match scanLiteral ['u', 'l', 'l'] rest with
        | .error err => .error err
        | .ok rest' => .ok (.null, rest')
      else .error .syntaxError

/-- The elements of an array from the start of an element on, up to the closing bracket. -/
def scanElems : Nat → Nat → List Char → List Json → Except JsonError (Json × List Char)
  | 0, _, _, _ => .error .syntaxError
  | fuel + 1, depth, cs, acc =>
    match scanValue fuel depth cs with
    | .error err => .error err
    | .ok (v, rest) =>
      match skipSpace rest with
      | [] => .error .unexpectedEOF
      | c :: rest' =>
        if c = ',' then scanElems fuel depth rest' (acc ++ [v])
        else if c = ']' then .ok (.array (acc ++ [v]), rest')
        else .error .syntaxError

/-- The members of an object from the start of a key on, up to the closing brace. -/
def scanMembers : Nat → Nat → List Char → List (String × Json) →
    Except JsonError (Json × List Char)
  | 0, _, _, _ => .error .syntaxError
  | fuel + 1, depth, cs, acc =>
    match skipSpace cs with
    | [] => .error .unexpectedEOF
    | q :: rest =>
      if q ≠ '"' then .error .syntaxError
      else
        match scanString rest [] with
        | .error err => .error err
        | .ok (us, rest₁) =>
          match skipSpace rest₁ with
          | [] => .error .unexpectedEOF
          | colon :: rest₂ =>
            if colon ≠ ':' then .error .syntaxError
            else
              match scanValue fuel depth rest₂ with
              | .error err => .error err
              | .ok (v, rest₃) =>
                match skipSpace rest₃ with
                | [] => .error .unexpectedEOF
                | c :: rest₄ =>
                  if c = ',' then
                    scanMembers fuel depth rest₄ (acc ++ [(unquote us, v)])
                  else if c = '\x7d' then
                    .ok (.object (acc ++ [(unquote us, v)]), rest₄)
                  else .error .syntaxError

end

/-- The `Value` text of a `json.UnmarshalTypeError` for a JSON value. -/
def jsonKind : Json → String
  | .null => "null"
  | .bool _ => "bool"
  | .number => "number"
  | .string _ => "string"
  | .array _ => "array"
  | .object _ => "object"

/-- Case folding of one character of an object key, as far as it can reach an ASCII letter:
lower case to upper case, and the two characters that fold to `S` and `K`. -/
def foldChar (c : Char) : Char :=
  if 'a' ≤ c && c ≤ 'z' then Char.ofNat (c.toNat - 32)
  else if c = Char.ofNat 0x17F then 'S'
  else if c = Char.ofNat 0x212A then 'K'
  else c

/-- Go `foldName` of the decoder. -/
def foldName (key : String) : String :=
  String.mk (key.data.map foldChar)

/-- The fields of `Price`, by their `json` tags. -/
inductive Field where
  | symbol
  | price
  deriving DecidableEq, Repr

/-- The field of `Price` an object key selects: an exact match with a tag first, a match
under case folding otherwise; `none` for a key that names no field. -/
def fieldOf (key : String) : Option Field :=
  if key = "symbol" then some .symbol
  else if key = "price" then some .price
  else if foldName key = "SYMBOL" then some .symbol
  else if foldName key = "PRICE" then some .price
  else none

/-- The name of a field of `Price` in an `UnmarshalTypeError`: struct and `json` tag. -/
def fieldPath : Field → String
  | .symbol => "Price.symbol"
  | .price => "Price.price"

/-- Store a string into a field of a `Price`. -/
def setField (p : Price) (f : Field) (s : String) : Price :=
  match f with
  | .symbol => { p with Symbol := s }
  | .price => { p with Price := s }

/-- Decoding one member of a JSON object into a `Price`: a key that names no field is
skipped with its value, a string is stored, `null` leaves the field as it is, any other
value is an `UnmarshalTypeError`, saved if it is the first error. -/
def storeMember (acc : Price × Option JsonError) (m : String × Json) :
    Price × Option JsonError :=
  match fieldOf m.1 with
  | none => acc
  | some f =>
    match m.2 with
    | .string s => (setField acc.1 f s, acc.2)
    | .null => acc
    | v =>
      match acc.2 with
      | some e => (acc.1, some e)
      | none => (acc.1, some (.unmarshalType (jsonKind v) "string" (fieldPath f)))

/-- Decoding one element of the array into a fresh `Price`: the members of an object in
order, nothing for `null`, an `UnmarshalTypeError` for any other value. -/
def unmarshalPrice (v : Json) : Price × Option JsonError :=
  match v with
  | .object members => members.foldl storeMember (⟨"", ""⟩, none)
  | .null => (⟨"", ""⟩, none)
  | v => (⟨"", ""⟩, some (.unmarshalType (jsonKind v) "main.Price" ""))

/-- The first saved error of a list of decoded elements. -/
def savedError : List (Price × Option JsonError) → Option JsonError
  | [] => none
  | (_, some e) :: _ => some e
  | (_, none) :: rest => savedError rest

/-- Decoding a JSON value into a nil `[]Price`: `null` leaves the slice nil, an array is
decoded element by element, and the first saved error, if any, is returned once the whole
value has been read; any other value is an `UnmarshalTypeError`. -/
def unmarshal (v : Json) : Except JsonError (List Price) :=
  match v with
  | .null => .ok []
  | .array elems =>
    match savedError (elems.map unmarshalPrice) with
    | some e => .error e
    | none => .ok ((elems.map unmarshalPrice).map Prod.fst)
  | v => .error (.unmarshalType (jsonKind v) "[]main.Price" "")

/-- Go `Decoder.readValue`: the first JSON value of the body; what follows it is left
unread.  A body of white space only is `io.EOF`.  The fuel is enough for every body
(`scanValue_fuel`). -/
def readValue (body : String) : Except JsonError Json :=
  match skipSpace body.data with
  | [] => .error .eof
  | _ :: _ =>
    match scanValue (2 * body.data.length + 1) 0 body.data with
    | .error err => .error err
    | .ok (v, _) => .ok v

/-- Go `json.NewDecoder(body).Decode(&prices)` on a nil `prices`: the first JSON value of the
body is read and decoded. -/
def Decode (body : String) : Except JsonError (List Price) :=
  match readValue body with
  | .error err => .error err
  | .ok v => unmarshal v

/-! ## Price fetcher -/

/-- Go `http.StatusOK`. -/
def StatusOK : Nat := 200

/-- Transcription of `fetchPrices` (main.go 41-65).  The result is the pair Go returns: the
prices (`nil` is `[]`) and the error (`nil` is `none`). -/
def fetchPrices {F : Type} (W : World F) (symbols : List String) :
    List Price × Option String :=
  match W.Marshal symbols with
  | .error err => ([], some err)
  | .ok symbolsJson =>
    let apiUrl :=
      "https://api.binance.com/api/v3/ticker/price?symbols=" ++ W.QueryEscape symbolsJson
    match W.Get apiUrl with
    | .error err => ([], some err)
    | .ok resp =>
      if resp.StatusCode ≠ StatusOK then
        ([], some ("unexpected status: " ++ resp.Status))
      else
        match Decode resp.Body with
        | .error err => ([], some (W.JsonErrorText err))
        | .ok prices => (prices, none)

/-! ## Metric publisher -/

/-- Go `priceGauge.WithLabelValues(symbol).Set(value)`: the child for the label is created
if it is missing, and its value is overwritten. -/
def setGauge {F : Type} (gauges : String → Option F) (symbol : String) (value : F) :
    String → Option F :=
  fun label => if label = symbol then some value else gauges label

/-- Transcription of `parsePrice` (main.go 78-80). -/
def parsePrice {F : Type} (W : World F) (priceStr : String) : Except String F :=
  W.ParseFloat priceStr

/-- The line `updateMetrics` prints for a record whose price does not parse:
`fmt.Printf("Error parsing price for %s: %v\n", price.Symbol, err)`. -/
def parseDiagnostic (symbol : String) (err : String) : String :=
  "Error parsing price for " ++ symbol ++ ": " ++ err ++ "\n"

/-- Transcription of `updateMetrics` (main.go 67-76): the loop over the records, in order. -/
def updateMetrics {F : Type} (W : World F) : List Price → State F → State F
  | [], σ => σ
  | price :: rest, σ =>
    match parsePrice W price.Price with
    | .error err =>
      updateMetrics W rest { σ with stdout := σ.stdout ++ [parseDiagnostic price.Symbol err] }
    | .ok value =>
      updateMetrics W rest { σ with priceGauge := setGauge σ.priceGauge price.Symbol value }

/-! ## Scrape endpoint -/

/-- The writer the server hands to a handler: nothing written yet. -/
def newResponseWriter : ResponseWriter :=
  ⟨none, none, ""⟩

/-- Go `w.WriteHeader(code)`: only the first call takes effect. -/
def WriteHeader (w : ResponseWriter) (code : Nat) : ResponseWriter :=
  match w.code with
  | some _ => w
  | none => { w with code := some code }

/-- Go `w.Write(data)`: writes the header with status 200 if none was written, then appends
to the body. -/
def Write (w : ResponseWriter) (data : String) : ResponseWriter :=
  let w := WriteHeader w 200
  { w with body := w.body ++ data }

/-- Go `http.Error(w, error, code)`: a plain-text content type, the status code, and the
message printed with `fmt.Fprintln`, that is, followed by a newline. -/
def httpError (w : ResponseWriter) (error : String) (code : Nat) : ResponseWriter :=
  let w := { w with contentType := some "text/plain; charset=utf-8" }
  let w := WriteHeader w code
  Write w (error ++ "\n")

/-- Go `http.StatusInternalServerError`. -/
def StatusInternalServerError : Nat := 500

/-- Go `promhttp.Handler().ServeHTTP(w, r)`: the exposition renderer writes its rendering of
the registry as the body, with its content type and status 200; the call is counted in
`served`. -/
def promhttpServeHTTP {F : Type} (W : World F) (w : ResponseWriter) (r : Request)
    (σ : State F) : ResponseWriter × State F :=
  let w := { w with contentType := some (W.ExpositionType r) }
  (Write w (W.Gather r σ.priceGauge), { σ with served := σ.served + 1 })

/-- Transcription of `metricsHandler` (main.go 82-93). -/
def metricsHandler {F : Type} (W : World F) (w : ResponseWriter) (r : Request)
    (σ : State F) : ResponseWriter × State F :=
  let symbols := getSymbols W
  match fetchPrices W symbols with
  | (_, some err) =>
    (httpError w ("Failed to fetch prices: " ++ err) StatusInternalServerError, σ)
  | (prices, none) =>
    let σ' := updateMetrics W prices σ
    promhttpServeHTTP W w r σ'

/-! ## Notions the statements use -/

/-- Pieces joined with a separator between neighbours (Go `strings.Join` on characters). -/
def joinWith (sep : List Char) : List (List Char) → List Char
  | [] => []
  | [p] => p
  | p :: q :: rest => p ++ sep ++ joinWith sep (q :: rest)

/-- The value of the last record of the batch that carries the symbol and a price that
parses; `none` if the batch has no such record. -/
def lastParsed {F : Type} (W : World F) (sym : String) : List Price → Option F
  | [] => none
  | p :: rest =>
    match lastParsed W sym rest with
    | some v => some v
    | none =>
      if p.Symbol = sym then
        match parsePrice W p.Price with
        | .ok v => some v
        | .error _ => none
      else none

/-- The diagnostics a batch gives rise to: one line for each record whose price does not
parse, in the order of the records. -/
def diagnostics {F : Type} (W : World F) : List Price → List String
  | [] => []
  | p :: rest =>
    match parsePrice W p.Price with
    | .ok _ => diagnostics W rest
    | .error err => parseDiagnostic p.Symbol err :: diagnostics W rest

/-- A member the decoder can store: its key names no field of `Price`, or its value is a
string or `null`. -/
def storable (m : String × Json) : Bool :=
  match fieldOf m.1, m.2 with
  | none, _ => true
  | some _, .string _ => true
  | some _, .null => true
  | some _, _ => false

/-- An element the decoder can turn into a `Price`: `null`, or an object all of whose members
are storable. -/
def decodableElem : Json → Bool
  | .null => true
  | .object members => members.all storable
  | _ => false

/-- A value the decoder can turn into a `[]Price`: `null`, or an array of decodable
elements. -/
def decodable : Json → Bool
  | .null => true
  | .array elems => elems.all decodableElem
  | _ => false

/-! ## Closed scenarios -/

deriving instance DecidableEq for Except

/-- The value of a string of decimal digits; `none` if a character is no digit or the string
is empty. -/
def digitsValue : List Char → Option Nat
  | [] => none
  | cs => cs.foldl (fun acc c => acc.bind fun n =>
      if isDigit c then some (n * 10 + (c.toNat - 48)) else none) (some 0)

/-- A world for closed scenarios.  `SYMBOLS` has the value `env`.  The upstream answers every
request with `upstream`; the request URL plays no part, and `QueryEscape` leaves its argument
as it is.  A float is named by a natural number: `ParseFloat` reads the strings of decimal
digits, on which it agrees with `strconv.ParseFloat` below `2 ^ 53`, and answers
`invalid syntax` to every other string.  The text of a syntax error is cut short.  The
rendering lists the gauges of four symbols. -/
def cannedWorld (env : Option String) (upstream : Except String Response) : World Nat where
  Environ := fun key => if key = "SYMBOLS" then env else none
  Marshal := fun symbols =>
    .ok ("[" ++ ",".intercalate (symbols.map fun s => "\"" ++ s ++ "\"") ++ "]")
  QueryEscape := fun s => s
  Get := fun _ => upstream
  ParseFloat := fun s =>
    match digitsValue s.data with
    | some n => .ok n
    | none => .error ("strconv.ParseFloat: parsing \"" ++ s ++ "\": invalid syntax")
  JsonErrorText := fun e =>
    match e with
    | .eof => "EOF"
    | .unexpectedEOF => "unexpected EOF"
    | .syntaxError => "invalid character"
    | .unmarshalType v t f =>
      if f = "" then "json: cannot unmarshal " ++ v ++ " into Go value of type " ++ t
      else "json: cannot unmarshal " ++ v ++ " into Go struct field " ++ f ++ " of type " ++ t
  Gather := fun _ gauges =>
    String.join (["BNBUSDT", "BTCUSDT", "ETHUSDT", "XXXUSDT"].map fun label =>
      match gauges label with
      | some v => "binance_crypto_price\x7bsymbol=\"" ++ label ++ "\"\x7d " ++ toString v ++ "\n"
      | none => "")
  ExpositionType := fun _ => "text/plain; version=0.0.4; charset=utf-8"

/-- An upstream that answers `200 OK` with the given body. -/
def answers (body : String) : Except String Response :=
  .ok ⟨"200 OK", 200, body⟩

/-- An upstream that cannot be reached. -/
def unreachable : Except String Response :=
  .error "dial tcp: lookup api.binance.com: no such host"

/-- The body of an upstream answer with one record that parses and one that does not. -/
def mixedBody : String :=
  "[\x7b\"symbol\":\"BTCUSDT\",\"price\":\"65000\"\x7d,\x7b\"symbol\":\"XXXUSDT\",\"price\":\"abc\"\x7d]"

/-- The state of a process that has published nothing yet. -/
def initialState : State Nat :=
  ⟨fun _ => none, [], 0⟩

/-- A scrape request. -/
def scrape : Request :=
  ⟨"GET", []⟩

/-! ## Lemmas on `strings.Split` -/

theorem IndexByte_of_not_mem (sep : Char) (s : List Char) (h : sep ∉ s) :
    IndexByte s sep = none := by
  induction s with
  | nil => rfl
  | cons c cs ih =>
    have hc : c ≠ sep := fun e => h (e ▸ List.mem_cons_self _ _)
    have hcs : sep ∉ cs := fun m => h (List.mem_cons_of_mem _ m)
    simp [IndexByte, hc, ih hcs]

theorem IndexByte_append (sep : Char) (pre post : List Char) (h : sep ∉ pre) :
    IndexByte (pre ++ sep :: post) sep = some pre.length := by
  induction pre with
  | nil => simp [IndexByte]
  | cons c cs ih =>
    have hc : c ≠ sep := fun e => h (e ▸ List.mem_cons_self _ _)
    have hcs : sep ∉ cs := fun m => h (List.mem_cons_of_mem _ m)
    simp [IndexByte, hc, ih hcs]

theorem genSplitLoop_of_not_mem (sep : Char) (n : Nat) (s : List Char) (h : sep ∉ s) :
    genSplitLoop sep n s = [s] := by
  cases n with
  | zero => rfl
  | succ n => simp [genSplitLoop, IndexByte_of_not_mem sep s h]

theorem genSplitLoop_append (sep : Char) (n : Nat) (pre post : List Char) (h : sep ∉ pre) :
    genSplitLoop sep (n + 1) (pre ++ sep :: post) = pre :: genSplitLoop sep n post := by
  simp [genSplitLoop, IndexByte_append sep pre post h]

theorem genSplit_eq_loop (s : List Char) (sep : Char) :
    genSplit s sep = genSplitLoop sep (Count s sep) s := by
  have hle : Count s sep ≤ s.length := List.count_le_length _ _
  have hn : ¬ (Count s sep + 1 > s.length + 1) := by omega
  simp [genSplit, hn]

theorem genSplit_of_not_mem (sep : Char) (s : List Char) (h : sep ∉ s) :
    genSplit s sep = [s] := by
  rw [genSplit_eq_loop]
  exact genSplitLoop_of_not_mem sep _ s h

theorem genSplit_append (sep : Char) (pre post : List Char) (h : sep ∉ pre) :
    genSplit (pre ++ sep :: post) sep = pre :: genSplit post sep := by
  rw [genSplit_eq_loop, genSplit_eq_loop]
  have hc : Count (pre ++ sep :: post) sep = Count post sep + 1 := by
    simp [Count, List.count_eq_zero_of_not_mem h]
  rw [hc]
  exact genSplitLoop_append sep _ pre post h

/-- Splitting undoes joining: separator-free pieces, joined, split back into themselves. -/
theorem genSplit_joinWith (sep : Char) (pieces : List (List Char)) (hne : pieces ≠ [])
    (hfree : ∀ p ∈ pieces, sep ∉ p) : genSplit (joinWith [sep] pieces) sep = pieces := by
  induction pieces with
  | nil => exact absurd rfl hne
  | cons p rest ih =>
    cases rest with
    | nil => exact genSplit_of_not_mem sep p (hfree p (List.mem_cons_self _ _))
    | cons q rest =>
      have hp : sep ∉ p := hfree p (List.mem_cons_self _ _)
      have hrest : ∀ x ∈ q :: rest, sep ∉ x := fun x hx => hfree x (List.mem_cons_of_mem _ hx)
      have := ih (List.cons_ne_nil _ _) hrest
      simp only [joinWith, List.append_assoc, List.singleton_append]
      rw [genSplit_append sep p _ hp, this]

/-- Every string is the join of separator-free pieces, one more than it has separators. -/
theorem exists_pieces (sep : Char) (s : List Char) :
    ∃ pieces : List (List Char), pieces ≠ [] ∧ (∀ p ∈ pieces, sep ∉ p) ∧
      joinWith [sep] pieces = s ∧ pieces.length = s.count sep + 1 := by
  induction s with
  | nil => exact ⟨[[]], by simp, by simp, rfl, by simp⟩
  | cons c cs ih =>
    obtain ⟨pieces, hne, hfree, hjoin, hlen⟩ := ih
    cases pieces with
    | nil => exact absurd rfl hne
    | cons p rest =>
      by_cases hc : c = sep
      · subst hc
        refine ⟨[] :: p :: rest, by simp, ?_, ?_, ?_⟩
        · intro x hx
          rcases List.mem_cons.1 hx with h | h
          · subst h; simp
          · exact hfree x h
        · simp [joinWith, hjoin]
        · simp [hlen]
      · refine ⟨(c :: p) :: rest, by simp, ?_, ?_, ?_⟩
        · intro x hx
          rcases List.mem_cons.1 hx with h | h
          · subst h
            intro hm
            rcases List.mem_cons.1 hm with h' | h'
            · exact hc h'.symm
            · exact hfree p (List.mem_cons_self _ _) h'
          · exact hfree x (List.mem_cons_of_mem _ h)
        · cases rest with
          | nil => simpa [joinWith] using hjoin
          | cons q rest => simpa [joinWith] using hjoin
        · simp at hlen
          simp [hlen, List.count_cons, hc]

theorem intercalate_go_data (sep acc : String) (l : List String) :
    (String.intercalate.go acc sep l).data =
      acc.data ++ (l.map fun a => sep.data ++ a.data).flatten := by
  induction l generalizing acc with
  | nil => simp [String.intercalate.go]
  | cons a rest ih => simp [String.intercalate.go, ih, String.data_append]

/-- The characters of `String.intercalate` are the join of the characters of the pieces. -/
theorem intercalate_data (sep : String) (l : List String) :
    (sep.intercalate l).data = joinWith sep.data (l.map String.data) := by
  cases l with
  | nil => rfl
  | cons a rest =>
    simp only [String.intercalate, intercalate_go_data]
    induction rest generalizing a with
    | nil => simp [joinWith]
    | cons b rest ih => simp [joinWith, ih b]

theorem map_mk_map_data (l : List String) : (l.map String.data).map String.mk = l := by
  induction l with
  | nil => rfl
  | cons a rest ih => rw [List.map_cons, List.map_cons, ih]

theorem map_data_map_mk (l : List (List Char)) : (l.map String.mk).map String.data = l := by
  induction l with
  | nil => rfl
  | cons a rest ih => rw [List.map_cons, List.map_cons, ih]

/-- Strings without the separator, joined with it, split back into themselves. -/
theorem Split_intercalate (sep : Char) (l : List String) (hne : l ≠ [])
    (hfree : ∀ x ∈ l, sep ∉ x.data) :
    Split ((String.singleton sep).intercalate l) sep = l := by
  have hd : (String.singleton sep).data = [sep] := rfl
  have hne' : l.map String.data ≠ [] := by simpa using hne
  have hfree' : ∀ p ∈ l.map String.data, sep ∉ p := by
    intro p hp
    obtain ⟨x, hx, rfl⟩ := List.mem_map.1 hp
    exact hfree x hx
  simp only [Split, intercalate_data, hd]
  rw [genSplit_joinWith sep _ hne' hfree', map_mk_map_data]

/-- What `strings.Split` returns for a one-byte separator: separator-free strings, one more
than there are separators, whose join is the input. -/
theorem Split_spec (sep : Char) (s : String) :
    Split s sep ≠ [] ∧ (∀ x ∈ Split s sep, sep ∉ x.data) ∧
      (String.singleton sep).intercalate (Split s sep) = s ∧
      (Split s sep).length = s.data.count sep + 1 := by
  obtain ⟨pieces, hne, hfree, hjoin, hlen⟩ := exists_pieces sep s.data
  have hsplit : Split s sep = pieces.map String.mk := by
    simp only [Split]
    rw [← hjoin, genSplit_joinWith sep pieces hne hfree]
  have hd : (String.singleton sep).data = [sep] := rfl
  refine ⟨?_, ?_, ?_, ?_⟩
  · simpa [hsplit] using hne
  · intro x hx
    rw [hsplit] at hx
    obtain ⟨p, hp, rfl⟩ := List.mem_map.1 hx
    exact hfree p hp
  · apply String.ext
    rw [intercalate_data, hsplit, map_data_map_mk, hd, hjoin]
  · rw [hsplit, List.length_map, hlen]

theorem getSymbols_of_override {F : Type} (W : World F) (s : String) (hs : s ≠ "")
    (henv : W.Environ "SYMBOLS" = some s) : getSymbols W = Split s ',' := by
  simp [getSymbols, Getenv, henv, hs]

/-! ## Lemmas on `updateMetrics` -/

/-- A gauge after `updateMetrics`: the last parsed value for its symbol, or what it was. -/
theorem updateMetrics_gauges {F : Type} (W : World F) (ps : List Price) (σ : State F)
    (sym : String) :
    (updateMetrics W ps σ).priceGauge sym =
      match lastParsed W sym ps with
      | some v => some v
      | none => σ.priceGauge sym := by
  induction ps generalizing σ with
  | nil => rfl
  | cons p rest ih =>
    simp only [updateMetrics, lastParsed]
    cases hp : parsePrice W p.Price with
    | error err =>
      simp only [ih]
      cases lastParsed W sym rest <;> simp
    | ok v =>
      simp only [ih]
      cases lastParsed W sym rest with
      | some u => rfl
      | none =>
        by_cases hs : p.Symbol = sym
        · simp [setGauge, hs]
        · have hs' : ¬ sym = p.Symbol := fun e => hs e.symm
          simp [setGauge, hs, hs']

/-- Standard output after `updateMetrics`: the diagnostics of the batch are appended. -/
theorem updateMetrics_stdout {F : Type} (W : World F) (ps : List Price) (σ : State F) :
    (updateMetrics W ps σ).stdout = σ.stdout ++ diagnostics W ps := by
  induction ps generalizing σ with
  | nil => simp [updateMetrics, diagnostics]
  | cons p rest ih =>
    simp only [updateMetrics, diagnostics]
    cases hp : parsePrice W p.Price with
    | error err => simp [ih]
    | ok v => simp [ih]

/-- The exposition handler is not served by `updateMetrics`. -/
theorem updateMetrics_served {F : Type} (W : World F) (ps : List Price) (σ : State F) :
    (updateMetrics W ps σ).served = σ.served := by
  induction ps generalizing σ with
  | nil => rfl
  | cons p rest ih =>
    simp only [updateMetrics]
    cases hp : parsePrice W p.Price with
    | error err => simp [ih]
    | ok v => simp [ih]

theorem lastParsed_append {F : Type} (W : World F) (sym : String) (pre post : List Price) :
    lastParsed W sym (pre ++ post) =
      match lastParsed W sym post with
      | some v => some v
      | none => lastParsed W sym pre := by
  induction pre with
  | nil =>
    rw [List.nil_append]
    cases h : lastParsed W sym post <;> simp [lastParsed]
  | cons p rest ih =>
    rw [List.cons_append]
    simp only [lastParsed]
    rw [ih]
    cases h : lastParsed W sym post <;> simp

/-- A value `lastParsed` finds is the parsed price of a record of the batch. -/
theorem lastParsed_some {F : Type} (W : World F) (sym : String) (ps : List Price) (v : F)
    (h : lastParsed W sym ps = some v) :
    ∃ p ∈ ps, p.Symbol = sym ∧ parsePrice W p.Price = .ok v := by
  induction ps with
  | nil => simp [lastParsed] at h
  | cons p rest ih =>
    simp only [lastParsed] at h
    cases hr : lastParsed W sym rest with
    | some u =>
      rw [hr] at h
      obtain ⟨q, hq, hsym, hv⟩ := ih (by rw [hr]; exact h)
      exact ⟨q, List.mem_cons_of_mem _ hq, hsym, hv⟩
    | none =>
      rw [hr] at h
      by_cases hs : p.Symbol = sym
      · cases hp : parsePrice W p.Price with
        | error err => simp [hs, hp] at h
        | ok u =>
          simp [hs, hp] at h
          exact ⟨p, List.mem_cons_self _ _, hs, by rw [hp, h]⟩
      · simp [hs] at h

/-- `lastParsed` finds nothing exactly when no record with the symbol has a price that
parses. -/
theorem lastParsed_none {F : Type} (W : World F) (sym : String) (ps : List Price)
    (h : ∀ p ∈ ps, p.Symbol = sym → ∀ v, parsePrice W p.Price ≠ .ok v) :
    lastParsed W sym ps = none := by
  cases hl : lastParsed W sym ps with
  | none => rfl
  | some v =>
    obtain ⟨p, hp, hsym, hv⟩ := lastParsed_some W sym ps v hl
    exact absurd hv (h p hp hsym v)

/-- A record whose price parses and whose symbol no later record repeats is the one
`lastParsed` finds. -/
theorem lastParsed_last {F : Type} (W : World F) (pre post : List Price) (p : Price) (v : F)
    (hp : parsePrice W p.Price = .ok v) (hpost : ∀ q ∈ post, q.Symbol ≠ p.Symbol) :
    lastParsed W p.Symbol (pre ++ p :: post) = some v := by
  have hnone : lastParsed W p.Symbol post = none :=
    lastParsed_none W p.Symbol post (fun q hq hs => absurd hs (hpost q hq))
  rw [lastParsed_append]
  simp [lastParsed, hnone, hp]

/-- A record of the batch whose price parses leaves some parsed value for its symbol. -/
theorem lastParsed_of_mem {F : Type} (W : World F) (ps : List Price) (p : Price) (v : F)
    (hmem : p ∈ ps) (hp : parsePrice W p.Price = .ok v) :
    ∃ u, lastParsed W p.Symbol ps = some u := by
  induction ps with
  | nil => simp at hmem
  | cons q rest ih =>
    simp only [lastParsed]
    cases hr : lastParsed W p.Symbol rest with
    | some u => exact ⟨u, rfl⟩
    | none =>
      rcases List.mem_cons.1 hmem with h | h
      · subst h
        exact ⟨v, by simp [hp]⟩
      · obtain ⟨u, hu⟩ := ih h
        rw [hr] at hu
        exact absurd hu (by simp)

/-- A symbol that occurs in a batch has a last record there. -/
theorem exists_last_record (ps : List Price) (sym : String)
    (h : ∃ r ∈ ps, r.Symbol = sym) :
    ∃ pre p post, ps = pre ++ p :: post ∧ p.Symbol = sym ∧ ∀ q ∈ post, q.Symbol ≠ sym := by
  induction ps with
  | nil =>
    obtain ⟨r, hr, _⟩ := h
    simp at hr
  | cons a rest ih =>
    by_cases hrest : ∃ r ∈ rest, r.Symbol = sym
    · obtain ⟨pre, p, post, hps, hsym, hpost⟩ := ih hrest
      exact ⟨a :: pre, p, post, by rw [hps, List.cons_append], hsym, hpost⟩
    · obtain ⟨r, hr, hsym⟩ := h
      rcases List.mem_cons.1 hr with hra | hrr
      · subst hra
        exact ⟨[], r, rest, rfl, hsym, fun q hq hqs => hrest ⟨q, hq, hqs⟩⟩
      · exact absurd ⟨r, hrr, hsym⟩ hrest

/-- A batch in which every price parses gives rise to no diagnostic. -/
theorem diagnostics_of_valid {F : Type} (W : World F) (ps : List Price)
    (h : ∀ p ∈ ps, ∃ v, parsePrice W p.Price = .ok v) : diagnostics W ps = [] := by
  induction ps with
  | nil => rfl
  | cons p rest ih =>
    obtain ⟨v, hv⟩ := h p (List.mem_cons_self _ _)
    simp only [diagnostics, hv]
    exact ih (fun q hq => h q (List.mem_cons_of_mem _ hq))

theorem diagnostics_append {F : Type} (W : World F) (pre post : List Price) :
    diagnostics W (pre ++ post) = diagnostics W pre ++ diagnostics W post := by
  induction pre with
  | nil => rfl
  | cons p rest ih =>
    rw [List.cons_append]
    simp only [diagnostics]
    rw [ih]
    cases h : parsePrice W p.Price <;> simp

/-! ## The scanner consumes its input, and its fuel is enough -/

theorem skipSpace_length_le (cs : List Char) : (skipSpace cs).length ≤ cs.length := by
  induction cs with
  | nil => simp [skipSpace]
  | cons c cs ih =>
    simp only [skipSpace]
    split
    · simp only [List.length_cons]; omega
    · exact Nat.le_refl _

theorem skipSpace_cons_lt {cs : List Char} {c : Char} {r : List Char}
    (h : skipSpace cs = c :: r) : r.length < cs.length := by
  have := skipSpace_length_le cs
  rw [h, List.length_cons] at this
  omega

theorem skipDigits_length_le (cs : List Char) : (skipDigits cs).length ≤ cs.length := by
  induction cs with
  | nil => simp [skipDigits]
  | cons c cs ih =>
    simp only [skipDigits]
    split
    · simp only [List.length_cons]; omega
    · exact Nat.le_refl _

theorem scanString_length (cs : List Char) (acc : List Nat) (us : List Nat) (rest : List Char)
    (h : scanString cs acc = .ok (us, rest)) : rest.length < cs.length := by
  induction cs, acc using scanString.induct generalizing us rest
  all_goals (unfold scanString at h; try simp [*] at h)
  all_goals (try (simp only [List.length_cons]))
  all_goals first
    | (obtain ⟨_, rfl⟩ := h; omega)
    | (rename_i ih; have := ih _ _ h; omega)

theorem scanLiteral_length (lit cs rest : List Char) (h : scanLiteral lit cs = .ok rest) :
    rest.length ≤ cs.length := by
  induction lit generalizing cs with
  | nil => simp [scanLiteral] at h; subst h; exact Nat.le_refl _
  | cons e es ih =>
    cases cs with
    | nil => simp [scanLiteral] at h
    | cons c cs =>
      simp only [scanLiteral] at h
      split at h
      · have := ih cs h
        simp only [List.length_cons]; omega
      · cases h

theorem scanDigits1_length (cs rest : List Char) (h : scanDigits1 cs = .ok rest) :
    rest.length < cs.length := by
  cases cs with
  | nil => simp [scanDigits1] at h
  | cons c cs =>
    simp only [scanDigits1] at h
    split at h
    · simp only [Except.ok.injEq] at h
      have := skipDigits_length_le cs
      rw [h] at this
      simp only [List.length_cons]; omega
    · cases h

theorem scanExponent_length (cs rest : List Char) (h : scanExponent cs = .ok rest) :
    rest.length ≤ cs.length := by
  cases cs with
  | nil => simp [scanExponent] at h; subst h; exact Nat.le_refl _
  | cons c cs =>
    simp only [scanExponent] at h
    split at h
    · split at h
      · cases h
      · rename_i s cs'
        split at h
        · have := scanDigits1_length _ _ h
          simp only [List.length_cons] at *; omega
        · have := scanDigits1_length _ _ h
          simp only [List.length_cons] at *; omega
    · simp only [Except.ok.injEq] at h
      subst h; exact Nat.le_refl _

theorem scanFraction_length (cs rest : List Char) (h : scanFraction cs = .ok rest) :
    rest.length ≤ cs.length := by
  cases cs with
  | nil => simp [scanFraction] at h; subst h; exact Nat.le_refl _
  | cons c cs =>
    simp only [scanFraction] at h
    split at h
    · split at h
      · cases h
      · rename_i r hr
        have h1 := scanDigits1_length _ _ hr
        have h2 := scanExponent_length _ _ h
        simp only [List.length_cons]; omega
    · exact scanExponent_length _ _ h

theorem scanInteger_length (cs rest : List Char) (h : scanInteger cs = .ok rest) :
    rest.length < cs.length := by
  cases cs with
  | nil => simp [scanInteger] at h
  | cons c cs =>
    simp only [scanInteger] at h
    split at h
    · have := scanFraction_length _ _ h
      simp only [List.length_cons]; omega
    · split at h
      · have h1 := scanFraction_length _ _ h
        have h2 := skipDigits_length_le cs
        simp only [List.length_cons]; omega
      · cases h

/-- Every scanner consumes input: what is left after a value, after the elements of an
array or after the members of an object is shorter than what it started from. -/
theorem scan_length (fuel : Nat) :
    (∀ d cs v rest, scanValue fuel d cs = .ok (v, rest) → rest.length < cs.length) ∧
    (∀ d cs acc v rest, scanElems fuel d cs acc = .ok (v, rest) → rest.length < cs.length) ∧
    (∀ d cs acc v rest, scanMembers fuel d cs acc = .ok (v, rest) →
      rest.length < cs.length) := by
  induction fuel with
  | zero =>
    refine ⟨?_, ?_, ?_⟩
    · intro d cs v rest h
      simp [scanValue] at h
    · intro d cs acc v rest h
      simp [scanElems] at h
    · intro d cs acc v rest h
      simp [scanMembers] at h
  | succ f ih =>
    obtain ⟨ihV, ihE, ihM⟩ := ih
    refine ⟨?_, ?_, ?_⟩
    · intro d cs v rest h
      rw [scanValue] at h
      split at h
      · cases h
      · rename_i c r hs
        have hr := skipSpace_cons_lt hs
        split at h
        · split at h
          · cases h
          · split at h
            · cases h
            · rename_i d' r' hs'
              have hr' := skipSpace_cons_lt hs'
              split at h
              · simp only [Except.ok.injEq, Prod.mk.injEq] at h
                obtain ⟨_, rfl⟩ := h
                omega
              · have := ihE _ _ _ _ _ h
                simp only [List.length_cons] at this
                omega
        · split at h
          · split at h
            · cases h
            · split at h
              · cases h
              · rename_i d' r' hs'
                have hr' := skipSpace_cons_lt hs'
                split at h
                · simp only [Except.ok.injEq, Prod.mk.injEq] at h
                  obtain ⟨_, rfl⟩ := h
                  omega
                · have := ihM _ _ _ _ _ h
                  simp only [List.length_cons] at this
                  omega
          · split at h
            · split at h
              · cases h
              · rename_i us r' hstr
                have := scanString_length _ _ _ _ hstr
                simp only [Except.ok.injEq, Prod.mk.injEq] at h
                obtain ⟨_, rfl⟩ := h
                omega
            · split at h
              · split at h
                · cases h
                · rename_i r' hint
                  have := scanInteger_length _ _ hint
                  simp only [Except.ok.injEq, Prod.mk.injEq] at h
                  obtain ⟨_, rfl⟩ := h
                  omega
              · split at h
                · split at h
                  · cases h
                  · rename_i r' hint
                    have := scanInteger_length _ _ hint
                    simp only [Except.ok.injEq, Prod.mk.injEq, List.length_cons] at h this
                    obtain ⟨_, rfl⟩ := h
                    omega
                · split at h
                  · split at h
                    · cases h
                    · rename_i r' hlit
                      have := scanLiteral_length _ _ _ hlit
                      simp only [Except.ok.injEq, Prod.mk.injEq] at h
                      obtain ⟨_, rfl⟩ := h
                      omega
                  · split at h
                    · split at h
                      · cases h
                      · rename_i r' hlit
                        have := scanLiteral_length _ _ _ hlit
                        simp only [Except.ok.injEq, Prod.mk.injEq] at h
                        obtain ⟨_, rfl⟩ := h
                        omega
                    · split at h
                      · split at h
                        · cases h
                        · rename_i r' hlit
                          have := scanLiteral_length _ _ _ hlit
                          simp only [Except.ok.injEq, Prod.mk.injEq] at h
                          obtain ⟨_, rfl⟩ := h
                          omega
                      · cases h
    · intro d cs acc v rest h
      rw [scanElems] at h
      split at h
      · cases h
      · rename_i v₁ r₁ hv
        have h₁ := ihV _ _ _ _ hv
        split at h
        · cases h
        · rename_i c r₂ hs
          have h₂ := skipSpace_cons_lt hs
          split at h
          · have := ihE _ _ _ _ _ h
            omega
          · split at h
            · simp only [Except.ok.injEq, Prod.mk.injEq] at h
              obtain ⟨_, rfl⟩ := h
              omega
            · cases h
    · intro d cs acc v rest h
      rw [scanMembers] at h
      split at h
      · cases h
      · rename_i q r hs
        have h₀ := skipSpace_cons_lt hs
        split at h
        · cases h
        · split at h
          · cases h
          · rename_i us r₁ hstr
            have h₁ := scanString_length _ _ _ _ hstr
            split at h
            · cases h
            · rename_i colon r₂ hs₂
              have h₂ := skipSpace_cons_lt hs₂
              split at h
              · cases h
              · split at h
                · cases h
                · rename_i v₃ r₃ hv
                  have h₃ := ihV _ _ _ _ hv
                  split at h
                  · cases h
                  · rename_i c r₄ hs₄
                    have h₄ := skipSpace_cons_lt hs₄
                    split at h
                    · have := ihM _ _ _ _ _ h
                      omega
                    · split at h
                      · simp only [Except.ok.injEq, Prod.mk.injEq] at h
                        obtain ⟨_, rfl⟩ := h
                        omega
                      · cases h

/-- The fuel of the scanners is immaterial once it exceeds twice the length of the input:
any two such amounts give the same result. -/
theorem scan_fuel (f : Nat) : ∀ g,
    (∀ d cs, 2 * cs.length + 1 ≤ f → 2 * cs.length + 1 ≤ g →
      scanValue f d cs = scanValue g d cs) ∧
    (∀ d cs acc, 2 * cs.length + 2 ≤ f → 2 * cs.length + 2 ≤ g →
      scanElems f d cs acc = scanElems g d cs acc) ∧
    (∀ d cs acc, 2 * cs.length + 2 ≤ f → 2 * cs.length + 2 ≤ g →
      scanMembers f d cs acc = scanMembers g d cs acc) := by
  induction f with
  | zero =>
    intro g
    refine ⟨?_, ?_, ?_⟩
    · intro d cs hf; omega
    · intro d cs acc hf; omega
    · intro d cs acc hf; omega
  | succ f ih =>
    intro g
    cases g with
    | zero =>
      refine ⟨?_, ?_, ?_⟩
      · intro d cs _ hg; omega
      · intro d cs acc _ hg; omega
      · intro d cs acc _ hg; omega
    | succ g =>
      obtain ⟨ihV, ihE, ihM⟩ := ih g
      refine ⟨?_, ?_, ?_⟩
      · intro d cs hf hg
        rw [scanValue, scanValue]
        split
        · rfl
        · rename_i c r hs
          have hr := skipSpace_cons_lt hs
          split
          · split
            · rfl
            · split
              · rfl
              · rename_i d' r' hs'
                have hr' := skipSpace_cons_lt hs'
                split
                · rfl
                · exact ihE _ _ _ (by simp only [List.length_cons]; omega)
                    (by simp only [List.length_cons]; omega)
          · split
            · split
              · rfl
              · split
                · rfl
                · rename_i d' r' hs'
                  have hr' := skipSpace_cons_lt hs'
                  split
                  · rfl
                  · exact ihM _ _ _ (by simp only [List.length_cons]; omega)
                      (by simp only [List.length_cons]; omega)
            · rfl
      · intro d cs acc hf hg
        rw [scanElems, scanElems, ihV d cs (by omega) (by omega)]
        split
        · rfl
        · rename_i v₁ r₁ hv
          have h₁ := (scan_length g).1 _ _ _ _ hv
          split
          · rfl
          · rename_i c r₂ hs
            have h₂ := skipSpace_cons_lt hs
            split
            · exact ihE _ _ _ (by omega) (by omega)
            · rfl
      · intro d cs acc hf hg
        rw [scanMembers, scanMembers]
        split
        · rfl
        · rename_i q r hs
          have h₀ := skipSpace_cons_lt hs
          split
          · rfl
          · split
            · rfl
            · rename_i us r₁ hstr
              have h₁ := scanString_length _ _ _ _ hstr
              split
              · rfl
              · rename_i colon r₂ hs₂
                have h₂ := skipSpace_cons_lt hs₂
                split
                · rfl
                · rw [ihV d r₂ (by omega) (by omega)]
                  split
                  · rfl
                  · rename_i v₃ r₃ hv
                    have h₃ := (scan_length g).1 _ _ _ _ hv
                    split
                    · rfl
                    · rename_i c r₄ hs₄
                      have h₄ := skipSpace_cons_lt hs₄
                      split
                      · exact ihM _ _ _ (by omega) (by omega)
                      · rfl

/-- The fuel `readValue` gives the scanner is enough: more fuel reads the same value. -/
theorem scanValue_fuel (fuel depth : Nat) (cs : List Char) (h : 2 * cs.length + 1 ≤ fuel) :
    scanValue fuel depth cs = scanValue (2 * cs.length + 1) depth cs :=
  ((scan_fuel fuel (2 * cs.length + 1)).1 depth cs h (Nat.le_refl _))

/-- The decoder on sample bodies: a well-formed answer, a number where a string is due, a
truncated body, a missing comma, an empty body, and text after the first value. -/
theorem Decode_samples :
    Decode "[\x7b\"symbol\":\"BTCUSDT\",\"price\":\"65000.12\"\x7d]" =
        .ok [⟨"BTCUSDT", "65000.12"⟩] ∧
      Decode "[\x7b\"symbol\":\"BTCUSDT\",\"price\":65000.12\x7d]" =
        .error (.unmarshalType "number" "string" "Price.price") ∧
      Decode "[\x7b\"symbol\":\"BTCUSDT\"" = .error .unexpectedEOF ∧
      Decode "[\x7b\"symbol\":\"BTCUSDT\" \"price\":\"1\"\x7d]" = .error .syntaxError ∧
      Decode " \n" = .error .eof ∧
      Decode "[] and more" = .ok [] := by
  decide

/-! ## Which values decode -/

theorem storeMember_error (p : Price) (e : JsonError) (m : String × Json) :
    ∃ p', storeMember (p, some e) m = (p', some e) := by
  unfold storeMember
  split
  · exact ⟨p, rfl⟩
  · split
    · exact ⟨_, rfl⟩
    · exact ⟨p, rfl⟩
    · exact ⟨p, rfl⟩

theorem foldl_storeMember_error (members : List (String × Json)) (p : Price) (e : JsonError) :
    ∃ p', members.foldl storeMember (p, some e) = (p', some e) := by
  induction members generalizing p with
  | nil => exact ⟨p, rfl⟩
  | cons m rest ih =>
    obtain ⟨p', hp'⟩ := storeMember_error p e m
    rw [List.foldl_cons, hp']
    exact ih p'

theorem storeMember_none (p : Price) (m : String × Json) :
    (storeMember (p, none) m).2 = none ↔ storable m = true := by
  obtain ⟨k, v⟩ := m
  cases hf : fieldOf k <;> cases v <;> simp [storeMember, storable, hf]

theorem foldl_storeMember_none (members : List (String × Json)) (p : Price) :
    (members.foldl storeMember (p, none)).2 = none ↔ members.all storable = true := by
  induction members generalizing p with
  | nil => simp
  | cons m rest ih =>
    rw [List.foldl_cons, List.all_cons, Bool.and_eq_true]
    cases hm : storeMember (p, none) m with
    | mk p' e' =>
      have hiff := storeMember_none p m
      rw [hm] at hiff
      cases e' with
      | none =>
        have hst : storable m = true := hiff.mp rfl
        rw [ih p']
        exact ⟨fun h => ⟨hst, h⟩, fun h => h.2⟩
      | some e =>
        obtain ⟨p'', hp''⟩ := foldl_storeMember_error rest p' e
        rw [hp'']
        constructor
        · intro h; cases h
        · intro h
          have := hiff.mpr h.1
          cases this

/-- An element decodes without error exactly when it is decodable. -/
theorem unmarshalPrice_none (v : Json) :
    (unmarshalPrice v).2 = none ↔ decodableElem v = true := by
  cases v with
  | object members => exact foldl_storeMember_none members _
  | null => simp [unmarshalPrice, decodableElem]
  | bool b => simp [unmarshalPrice, decodableElem]
  | number => simp [unmarshalPrice, decodableElem]
  | string s => simp [unmarshalPrice, decodableElem]
  | array elems => simp [unmarshalPrice, decodableElem]

theorem savedError_none (elems : List Json) :
    savedError (elems.map unmarshalPrice) = none ↔ elems.all decodableElem = true := by
  induction elems with
  | nil => simp [savedError]
  | cons v rest ih =>
    rw [List.map_cons, List.all_cons, Bool.and_eq_true, ← ih, ← unmarshalPrice_none]
    cases h : unmarshalPrice v with
    | mk p e =>
      cases e with
      | none => simp [savedError]
      | some e => simp [savedError]

/-- Go `Unmarshal` into a `[]Price` succeeds exactly on the decodable values. -/
theorem unmarshal_ok_iff (v : Json) :
    (∃ prices, unmarshal v = .ok prices) ↔ decodable v = true := by
  cases v with
  | array elems =>
    simp only [unmarshal, decodable]
    rw [← savedError_none]
    cases h : savedError (elems.map unmarshalPrice) with
    | none => simp
    | some e => simp
  | null => simp [unmarshal, decodable]
  | bool b => simp [unmarshal, decodable]
  | number => simp [unmarshal, decodable]
  | string s => simp [unmarshal, decodable]
  | object members => simp [unmarshal, decodable]

/-- The decoder succeeds exactly on the bodies that begin with a decodable value. -/
theorem Decode_ok_iff (body : String) :
    (∃ prices, Decode body = .ok prices) ↔ ∃ v, readValue body = .ok v ∧ decodable v = true := by
  unfold Decode
  cases h : readValue body with
  | error e => simp
  | ok v => simpa using unmarshal_ok_iff v

/-! ## Lemmas on `fetchPrices` and `metricsHandler` -/

/-- A transport error is returned as it is, with no prices. -/
theorem fetchPrices_of_transport_error {F : Type} (W : World F) (symbols : List String)
    (symbolsJson err : String) (hm : W.Marshal symbols = .ok symbolsJson)
    (hget : W.Get ("https://api.binance.com/api/v3/ticker/price?symbols=" ++
      W.QueryEscape symbolsJson) = .error err) :
    fetchPrices W symbols = ([], some err) := by
  simp [fetchPrices, hm, hget]

/-- A response whose status is not 200 is turned into an error, with no prices. -/
theorem fetchPrices_of_status {F : Type} (W : World F) (symbols : List String)
    (symbolsJson : String) (resp : Response) (hm : W.Marshal symbols = .ok symbolsJson)
    (hget : W.Get ("https://api.binance.com/api/v3/ticker/price?symbols=" ++
      W.QueryEscape symbolsJson) = .ok resp)
    (hstatus : resp.StatusCode ≠ 200) :
    fetchPrices W symbols = ([], some ("unexpected status: " ++ resp.Status)) := by
  simp [fetchPrices, StatusOK, hm, hget, hstatus]

/-- A response with status 200 is decoded: the decoder's error, or the prices. -/
theorem fetchPrices_of_ok {F : Type} (W : World F) (symbols : List String)
    (symbolsJson : String) (resp : Response) (hm : W.Marshal symbols = .ok symbolsJson)
    (hget : W.Get ("https://api.binance.com/api/v3/ticker/price?symbols=" ++
      W.QueryEscape symbolsJson) = .ok resp)
    (hstatus : resp.StatusCode = 200) :
    fetchPrices W symbols =
      match Decode resp.Body with
      | .error err => ([], some (W.JsonErrorText err))
      | .ok prices => (prices, none) := by
  simp [fetchPrices, StatusOK, hm, hget, hstatus]

/-- Whenever `fetchPrices` returns an error it returns no prices. -/
theorem fetchPrices_error_no_prices {F : Type} (W : World F) (symbols : List String)
    (err : String) (h : (fetchPrices W symbols).2 = some err) :
    (fetchPrices W symbols).1 = [] := by
  cases hm : W.Marshal symbols with
  | error e => simp [fetchPrices, hm]
  | ok symbolsJson =>
    cases hget : W.Get ("https://api.binance.com/api/v3/ticker/price?symbols=" ++
        W.QueryEscape symbolsJson) with
    | error e => simp [fetchPrices, hm, hget]
    | ok resp =>
      by_cases hstatus : resp.StatusCode = 200
      · cases hdec : Decode resp.Body with
        | error e => simp [fetchPrices, StatusOK, hm, hget, hstatus, hdec]
        | ok prices => simp [fetchPrices, StatusOK, hm, hget, hstatus, hdec] at h
      · simp [fetchPrices, StatusOK, hm, hget, hstatus]

/-- The failure branch of `metricsHandler`. -/
theorem metricsHandler_of_error {F : Type} (W : World F) (w : ResponseWriter) (r : Request)
    (σ : State F) (err : String) (h : (fetchPrices W (getSymbols W)).2 = some err) :
    metricsHandler W w r σ =
      (httpError w ("Failed to fetch prices: " ++ err) StatusInternalServerError, σ) := by
  cases hf : fetchPrices W (getSymbols W) with
  | mk prices e =>
    rw [hf] at h
    simp only at h
    subst h
    simp only [metricsHandler, hf]

/-- The success branch of `metricsHandler`. -/
theorem metricsHandler_of_ok {F : Type} (W : World F) (w : ResponseWriter) (r : Request)
    (σ : State F) (prices : List Price) (h : fetchPrices W (getSymbols W) = (prices, none)) :
    metricsHandler W w r σ = promhttpServeHTTP W w r (updateMetrics W prices σ) := by
  simp only [metricsHandler, h]

/-! ## Statements about the exporter -/

/-- C1, as stated, fails on the body: `http.Error` prints the message with `fmt.Fprintln`, so
the body of the failure response ends in a newline after the error detail.  Here the
transport fails with `dial tcp: lookup api.binance.com: no such host`. -/
theorem metricsHandler_fetch_failure_counterexample :
    (fetchPrices (cannedWorld none unreachable)
        (getSymbols (cannedWorld none unreachable))).2 =
        some "dial tcp: lookup api.binance.com: no such host" ∧
      (metricsHandler (cannedWorld none unreachable)
        newResponseWriter scrape initialState).1.body ≠
        "Failed to fetch prices: " ++ "dial tcp: lookup api.binance.com: no such host" ∧
      (metricsHandler (cannedWorld none unreachable)
        newResponseWriter scrape initialState).1.body =
        "Failed to fetch prices: dial tcp: lookup api.binance.com: no such host\n" := by
  decide

/-- C1, amended: for every fetch failure (a transport error, an upstream status other than
200, a decode error), `metricsHandler` responds with status 500 and a plain-text body that is
`"Failed to fetch prices: "`, the error detail and a final newline; it leaves every gauge
as it was and does not invoke the exposition renderer. -/
theorem metricsHandler_fetch_failure {F : Type} (W : World F) (r : Request) (σ : State F)
    (err : String) (hfail : (fetchPrices W (getSymbols W)).2 = some err) :
    (metricsHandler W newResponseWriter r σ).1.code = some 500 ∧
      (metricsHandler W newResponseWriter r σ).1.contentType =
        some "text/plain; charset=utf-8" ∧
      (metricsHandler W newResponseWriter r σ).1.body =
        "Failed to fetch prices: " ++ err ++ "\n" ∧
      (metricsHandler W newResponseWriter r σ).2.priceGauge = σ.priceGauge ∧
      (metricsHandler W newResponseWriter r σ).2.served = σ.served := by
  rw [metricsHandler_of_error W newResponseWriter r σ err hfail]
  simp [httpError, Write, WriteHeader, newResponseWriter, StatusInternalServerError]

/-- Witness of C1, amended: an upstream that answers 200 with the body `[1` (a decode error). -/
theorem metricsHandler_fetch_failure_witness :
    (metricsHandler (cannedWorld none (answers "[1"))
      newResponseWriter scrape initialState).1.body =
      "Failed to fetch prices: " ++ "unexpected EOF" ++ "\n" :=
  (metricsHandler_fetch_failure (cannedWorld none (answers "[1"))
    scrape initialState "unexpected EOF" (by decide)).2.2.1

/-- C2: for every upstream response whose status code is not 200, whatever its body,
`fetchPrices` returns no prices and the error `"unexpected status: "` followed by the response
status; the body does not enter the result.  For an upstream status 503 (a status line that
begins with `503`) the scrape response therefore has status 500 and a body that contains
`"unexpected status: 503"`, and the state is untouched. -/
theorem fetchPrices_unexpected_status {F : Type} (W : World F) (symbols : List String)
    (symbolsJson : String) (resp : Response) (hm : W.Marshal symbols = .ok symbolsJson)
    (hget : W.Get ("https://api.binance.com/api/v3/ticker/price?symbols=" ++
      W.QueryEscape symbolsJson) = .ok resp)
    (hstatus : resp.StatusCode ≠ 200) :
    fetchPrices W symbols = ([], some ("unexpected status: " ++ resp.Status)) ∧
      (symbols = getSymbols W → resp.StatusCode = 503 → "503".data <+: resp.Status.data →
        ∀ (r : Request) (σ : State F),
          (metricsHandler W newResponseWriter r σ).1.code = some 500 ∧
          "unexpected status: 503".data <:+:
            (metricsHandler W newResponseWriter r σ).1.body.data ∧
          (metricsHandler W newResponseWriter r σ).2 = σ) := by
  have hfetch := fetchPrices_of_status W symbols symbolsJson resp hm hget hstatus
  refine ⟨hfetch, ?_⟩
  intro hsym _ hline r σ
  subst hsym
  have hfail : (fetchPrices W (getSymbols W)).2 = some ("unexpected status: " ++ resp.Status) := by
    rw [hfetch]
  rw [metricsHandler_of_error W newResponseWriter r σ _ hfail]
  obtain ⟨reason, hreason⟩ := hline
  refine ⟨by simp [httpError, Write, WriteHeader, newResponseWriter,
    StatusInternalServerError], ?_, rfl⟩
  refine ⟨"Failed to fetch prices: ".data, reason ++ "\n".data, ?_⟩
  simp [httpError, Write, WriteHeader, newResponseWriter, String.data_append, ← hreason]

/-- Witness of C2: the upstream answers `503 Service Unavailable` with a body that would
decode; the fetch fails and the scrape is answered with status 500. -/
theorem fetchPrices_unexpected_status_witness :
    fetchPrices (cannedWorld none (.ok ⟨"503 Service Unavailable", 503, "[]"⟩))
        ["BTCUSDT", "ETHUSDT", "BNBUSDT"] =
      ([], some ("unexpected status: " ++ "503 Service Unavailable")) ∧
      (metricsHandler (cannedWorld none (.ok ⟨"503 Service Unavailable", 503, "[]"⟩))
        newResponseWriter scrape initialState).1.code = some 500 :=
  ⟨(fetchPrices_unexpected_status
      (cannedWorld none (.ok ⟨"503 Service Unavailable", 503, "[]"⟩))
      ["BTCUSDT", "ETHUSDT", "BNBUSDT"] "[\"BTCUSDT\",\"ETHUSDT\",\"BNBUSDT\"]"
      ⟨"503 Service Unavailable", 503, "[]"⟩ (by decide) (by decide) (by decide)).1,
    ((fetchPrices_unexpected_status
      (cannedWorld none (.ok ⟨"503 Service Unavailable", 503, "[]"⟩))
      ["BTCUSDT", "ETHUSDT", "BNBUSDT"] "[\"BTCUSDT\",\"ETHUSDT\",\"BNBUSDT\"]"
      ⟨"503 Service Unavailable", 503, "[]"⟩ (by decide) (by decide) (by decide)).2
      (by decide) (by decide) ⟨" Service Unavailable".data, by decide⟩
      scrape initialState).1⟩

/-- C3, as stated, fails on a batch that repeats a symbol: both prices of
`[(BTCUSDT, "1"), (BTCUSDT, "2")]` parse, and the gauge of `BTCUSDT` ends at the value of the
second record, not at the value parsed from the first record's price. -/
theorem updateMetrics_valid_counterexample :
    parsePrice (cannedWorld none unreachable) "1" = .ok 1 ∧
      parsePrice (cannedWorld none unreachable) "2" = .ok 2 ∧
      (updateMetrics (cannedWorld none unreachable)
        [⟨"BTCUSDT", "1"⟩, ⟨"BTCUSDT", "2"⟩] initialState).priceGauge "BTCUSDT" = some 2 ∧
      (updateMetrics (cannedWorld none unreachable)
        [⟨"BTCUSDT", "1"⟩, ⟨"BTCUSDT", "2"⟩] initialState).priceGauge "BTCUSDT" ≠ some 1 := by
  decide

/-- C3, amended: for every batch in which every price parses, after `updateMetrics` the gauge
for each record's symbol holds the value parsed from the price of the last record of the
batch with that symbol (the record's own price when no later record repeats its symbol),
and no diagnostic is emitted. -/
theorem updateMetrics_valid {F : Type} (W : World F) (ps : List Price) (σ : State F)
    (hall : ∀ p ∈ ps, ∃ v, parsePrice W p.Price = .ok v) :
    (∀ pre p post, ps = pre ++ p :: post → (∀ q ∈ post, q.Symbol ≠ p.Symbol) →
        ∃ v, parsePrice W p.Price = .ok v ∧
          (updateMetrics W ps σ).priceGauge p.Symbol = some v) ∧
      (∀ r ∈ ps, ∃ pre p post, ps = pre ++ p :: post ∧ p.Symbol = r.Symbol ∧
        (∀ q ∈ post, q.Symbol ≠ r.Symbol) ∧
        ∃ v, parsePrice W p.Price = .ok v ∧
          (updateMetrics W ps σ).priceGauge r.Symbol = some v) ∧
      (updateMetrics W ps σ).stdout = σ.stdout := by
  have hlast : ∀ pre p post, ps = pre ++ p :: post → (∀ q ∈ post, q.Symbol ≠ p.Symbol) →
      ∃ v, parsePrice W p.Price = .ok v ∧
        (updateMetrics W ps σ).priceGauge p.Symbol = some v := by
    intro pre p post hps hpost
    obtain ⟨v, hv⟩ := hall p (by rw [hps]; simp)
    refine ⟨v, hv, ?_⟩
    rw [updateMetrics_gauges, hps, lastParsed_last W pre post p v hv hpost]
  refine ⟨hlast, ?_, ?_⟩
  · intro r hr
    obtain ⟨pre, p, post, hps, hsym, hpost⟩ := exists_last_record ps r.Symbol ⟨r, hr, rfl⟩
    obtain ⟨v, hv, hg⟩ := hlast pre p post hps (by rw [hsym]; exact hpost)
    exact ⟨pre, p, post, hps, hsym, hpost, v, hv, by rw [← hsym]; exact hg⟩
  · rw [updateMetrics_stdout, diagnostics_of_valid W ps hall, List.append_nil]

/-- Witness of C3, amended: on `[(BTCUSDT, "1"), (BTCUSDT, "2")]` the gauge holds the value of
the second record, which no later record repeats, and nothing is printed. -/
theorem updateMetrics_valid_witness :
    (∃ v, parsePrice (cannedWorld none unreachable) "2" = .ok v ∧
        (updateMetrics (cannedWorld none unreachable)
          [⟨"BTCUSDT", "1"⟩, ⟨"BTCUSDT", "2"⟩] initialState).priceGauge "BTCUSDT" = some v) ∧
      (updateMetrics (cannedWorld none unreachable)
        [⟨"BTCUSDT", "1"⟩, ⟨"BTCUSDT", "2"⟩] initialState).stdout = [] :=
  have h := updateMetrics_valid (cannedWorld none unreachable)
    [⟨"BTCUSDT", "1"⟩, ⟨"BTCUSDT", "2"⟩] initialState (by
      intro p hp
      simp only [List.mem_cons, List.mem_singleton, List.not_mem_nil, or_false] at hp
      rcases hp with rfl | rfl
      · exact ⟨1, by decide⟩
      · exact ⟨2, by decide⟩)
  ⟨h.1 [⟨"BTCUSDT", "1"⟩] ⟨"BTCUSDT", "2"⟩ [] rfl (by simp), h.2.2⟩

/-- C4: partial-failure law.  In a batch with pairwise distinct symbols, one record `bad`
whose price does not parse, at any position among records whose prices parse, aborts
nothing: the gauge of every other record holds the value parsed from its price, and exactly
one diagnostic is printed, which names the symbol of `bad`. -/
theorem updateMetrics_one_malformed {F : Type} (W : World F) (pre post : List Price)
    (bad : Price) (err : String) (σ : State F)
    (hdistinct : ((pre ++ bad :: post).map Price.Symbol).Nodup)
    (hpre : ∀ p ∈ pre, ∃ v, parsePrice W p.Price = .ok v)
    (hpost : ∀ p ∈ post, ∃ v, parsePrice W p.Price = .ok v)
    (hbad : parsePrice W bad.Price = .error err) :
    (∀ p ∈ pre ++ post, ∃ v, parsePrice W p.Price = .ok v ∧
        (updateMetrics W (pre ++ bad :: post) σ).priceGauge p.Symbol = some v) ∧
      (updateMetrics W (pre ++ bad :: post) σ).stdout =
        σ.stdout ++ [parseDiagnostic bad.Symbol err] ∧
      bad.Symbol.data <:+: (parseDiagnostic bad.Symbol err).data := by
  refine ⟨?_, ?_, ?_⟩
  · intro p hp
    have hmem : p ∈ pre ++ bad :: post := by
      rcases List.mem_append.1 hp with h | h
      · exact List.mem_append.2 (Or.inl h)
      · exact List.mem_append.2 (Or.inr (List.mem_cons_of_mem _ h))
    obtain ⟨v, hv⟩ : ∃ v, parsePrice W p.Price = .ok v := by
      rcases List.mem_append.1 hp with h | h
      · exact hpre p h
      · exact hpost p h
    obtain ⟨u, hu⟩ := lastParsed_of_mem W _ p v hmem hv
    obtain ⟨q, hq, hsym, hqu⟩ := lastParsed_some W p.Symbol _ u hu
    have hqp : q = p := List.inj_on_of_nodup_map hdistinct hq hmem hsym
    subst hqp
    have huv : u = v := by
      rw [hv] at hqu
      exact (Except.ok.inj hqu).symm
    subst huv
    exact ⟨u, hv, by rw [updateMetrics_gauges, hu]⟩
  · rw [updateMetrics_stdout, diagnostics_append, diagnostics_of_valid W pre hpre]
    simp only [diagnostics, hbad, diagnostics_of_valid W post hpost, List.nil_append]
  · exact ⟨"Error parsing price for ".data, (": " ++ err ++ "\n").data, by
      simp [parseDiagnostic, String.data_append]⟩

/-- Witness of C4: the malformed record in the middle of three. -/
theorem updateMetrics_one_malformed_witness :
    (updateMetrics (cannedWorld none unreachable)
        [⟨"BTCUSDT", "65000"⟩, ⟨"XXXUSDT", "abc"⟩, ⟨"ETHUSDT", "3000"⟩] initialState).stdout =
      [] ++ [parseDiagnostic "XXXUSDT"
        "strconv.ParseFloat: parsing \"abc\": invalid syntax"] :=
  (updateMetrics_one_malformed (cannedWorld none unreachable)
    [⟨"BTCUSDT", "65000"⟩] [⟨"ETHUSDT", "3000"⟩] ⟨"XXXUSDT", "abc"⟩
    "strconv.ParseFloat: parsing \"abc\": invalid syntax" initialState (by decide)
    (by
      intro p hp
      rw [List.mem_singleton] at hp
      subst hp
      exact ⟨65000, by decide⟩)
    (by
      intro p hp
      rw [List.mem_singleton] at hp
      subst hp
      exact ⟨3000, by decide⟩)
    (by decide)).2.1

/-- C5: when the `SYMBOLS` variable is unset or empty, `getSymbols` returns exactly
`["BTCUSDT", "ETHUSDT", "BNBUSDT"]`, in that order. -/
theorem getSymbols_default {F : Type} (W : World F)
    (h : W.Environ "SYMBOLS" = none ∨ W.Environ "SYMBOLS" = some "") :
    getSymbols W = ["BTCUSDT", "ETHUSDT", "BNBUSDT"] := by
  rcases h with h | h <;> simp [getSymbols, Getenv, h]

/-- Witness of C5: a world with `SYMBOLS` unset resolves to the three default symbols. -/
theorem getSymbols_default_witness :
    (cannedWorld none unreachable).Environ "SYMBOLS" = none ∧
      getSymbols (cannedWorld none unreachable) = ["BTCUSDT", "ETHUSDT", "BNBUSDT"] :=
  ⟨by decide, getSymbols_default _ (Or.inl (by decide))⟩

/-- C6: for every non-empty override `s`, `getSymbols` returns the comma-split of `s`: no
element contains a comma, the elements joined with `","` are `s` again, there is one more
element than `s` has commas (so the list is never empty), an override without a comma gives
`[s]`, and no other list of comma-free strings joins to `s`. -/
theorem getSymbols_override {F : Type} (W : World F) (s : String) (hs : s ≠ "")
    (henv : W.Environ "SYMBOLS" = some s) :
    (∀ x ∈ getSymbols W, ',' ∉ x.data) ∧
      ",".intercalate (getSymbols W) = s ∧
      (getSymbols W).length = s.data.count ',' + 1 ∧
      getSymbols W ≠ [] ∧
      (',' ∉ s.data → getSymbols W = [s]) ∧
      (∀ l : List String, (∀ x ∈ l, ',' ∉ x.data) → ",".intercalate l = s →
        getSymbols W = l) := by
  rw [getSymbols_of_override W s hs henv]
  obtain ⟨hne, hfree, hjoin, hlen⟩ := Split_spec ',' s
  refine ⟨hfree, hjoin, hlen, hne, ?_, ?_⟩
  · intro hno
    have h1 : Split (",".intercalate [s]) ',' = [s] :=
      Split_intercalate ',' [s] (by simp) (by simpa using hno)
    simpa [String.intercalate, String.intercalate.go] using h1
  · intro l hl hjoinl
    have hlne : l ≠ [] := by
      rintro rfl
      exact hs hjoinl.symm
    rw [← hjoinl]
    exact Split_intercalate ',' l hlne hl

/-- Witness of C6: the override `"btcusdt, ETHUSDT,,x"` is split at its commas, blanks and
the empty element kept. -/
theorem getSymbols_override_witness :
    getSymbols (cannedWorld (some "btcusdt, ETHUSDT,,x") unreachable) =
        ["btcusdt", " ETHUSDT", "", "x"] ∧
      ",".intercalate (getSymbols (cannedWorld (some "btcusdt, ETHUSDT,,x") unreachable))
        = "btcusdt, ETHUSDT,,x" :=
  ⟨by decide,
    (getSymbols_override (cannedWorld (some "btcusdt, ETHUSDT,,x") unreachable)
      "btcusdt, ETHUSDT,,x" (by decide) (by decide)).2.1⟩

/-- C7, as stated, fails: a status-200 body that is no array of objects with a string
`symbol` and a string `price` can decode without error.  The body `[{}]` yields one record
with two empty fields, and the body `null` yields no record and no error. -/
theorem fetchPrices_decode_failure_counterexample :
    fetchPrices (cannedWorld none (answers "[\x7b\x7d]"))
        ["BTCUSDT", "ETHUSDT", "BNBUSDT"] = ([⟨"", ""⟩], none) ∧
      fetchPrices (cannedWorld none (answers "null"))
        ["BTCUSDT", "ETHUSDT", "BNBUSDT"] = ([], none) := by
  decide

/-- C7, amended: for every upstream response with status 200 whose body does not begin with
a JSON value that is `null` or an array whose elements are each `null` or an object in which
every member named `symbol` or `price` (up to case) holds a string or `null`, `fetchPrices`
fails with a decode error and returns no prices. -/
theorem fetchPrices_decode_failure {F : Type} (W : World F) (symbols : List String)
    (symbolsJson : String) (resp : Response) (hm : W.Marshal symbols = .ok symbolsJson)
    (hget : W.Get ("https://api.binance.com/api/v3/ticker/price?symbols=" ++
      W.QueryEscape symbolsJson) = .ok resp)
    (hstatus : resp.StatusCode = 200)
    (hbad : ∀ v, readValue resp.Body = .ok v → decodable v = false) :
    ∃ e, Decode resp.Body = .error e ∧
      fetchPrices W symbols = ([], some (W.JsonErrorText e)) := by
  rw [fetchPrices_of_ok W symbols symbolsJson resp hm hget hstatus]
  cases hdec : Decode resp.Body with
  | error e => exact ⟨e, rfl, rfl⟩
  | ok prices =>
    obtain ⟨v, hv, hdv⟩ := (Decode_ok_iff resp.Body).1 ⟨prices, hdec⟩
    rw [hbad v hv] at hdv
    cases hdv

/-- Witness of C7, amended: the body `{}` is an object, not an array, and is refused. -/
theorem fetchPrices_decode_failure_witness :
    fetchPrices (cannedWorld none (answers "\x7b\x7d")) ["BTCUSDT", "ETHUSDT", "BNBUSDT"] =
      ([], some "json: cannot unmarshal object into Go value of type []main.Price") := by
  obtain ⟨e, hdec, hfetch⟩ :=
    fetchPrices_decode_failure (cannedWorld none (answers "\x7b\x7d"))
      ["BTCUSDT", "ETHUSDT", "BNBUSDT"] "[\"BTCUSDT\",\"ETHUSDT\",\"BNBUSDT\"]"
      ⟨"200 OK", 200, "\x7b\x7d"⟩ (by decide) (by decide) (by decide) (by
        intro v hv
        have hread : readValue "\x7b\x7d" = .ok (.object []) := by rfl
        rw [show (⟨"200 OK", 200, "\x7b\x7d"⟩ : Response).Body = "\x7b\x7d" from rfl,
          hread] at hv
        cases hv
        rfl)
  have hobj : Decode "\x7b\x7d" = .error (.unmarshalType "object" "[]main.Price" "") := by
    decide
  rw [show (⟨"200 OK", 200, "\x7b\x7d"⟩ : Response).Body = "\x7b\x7d" from rfl, hobj] at hdec
  cases hdec
  exact hfetch

/-- C8: idempotence of publishing.  For every state and every batch, a second
`updateMetrics` with the same batch leaves every gauge at its value after the first. -/
theorem updateMetrics_idempotent {F : Type} (W : World F) (ps : List Price) (σ : State F) :
    (updateMetrics W ps (updateMetrics W ps σ)).priceGauge = (updateMetrics W ps σ).priceGauge := by
  funext sym
  rw [updateMetrics_gauges W ps (updateMetrics W ps σ), updateMetrics_gauges W ps σ]
  cases h : lastParsed W sym ps <;> rfl

/-- C9: for every successful fetch, `metricsHandler` applies `updateMetrics` to the fetched
records before it renders: the response has status 200, its body is the renderer's output
for the gauges as `updateMetrics` has left them, and the renderer is invoked once.  The
records are arbitrary, so this holds when some or all of them are skipped. -/
theorem metricsHandler_success {F : Type} (W : World F) (r : Request) (σ : State F)
    (prices : List Price) (hok : fetchPrices W (getSymbols W) = (prices, none)) :
    (metricsHandler W newResponseWriter r σ).1.code = some 200 ∧
      (metricsHandler W newResponseWriter r σ).1.body =
        W.Gather r (updateMetrics W prices σ).priceGauge ∧
      (metricsHandler W newResponseWriter r σ).2.priceGauge = (updateMetrics W prices σ).priceGauge ∧
      (metricsHandler W newResponseWriter r σ).2.stdout = (updateMetrics W prices σ).stdout ∧
      (metricsHandler W newResponseWriter r σ).2.served = σ.served + 1 := by
  rw [metricsHandler_of_ok W newResponseWriter r σ prices hok]
  simp [promhttpServeHTTP, Write, WriteHeader, newResponseWriter, updateMetrics_served]

/-- Witness of C9: one record that parses and one that is skipped; the body of the response
reports the gauge that was just set. -/
theorem metricsHandler_success_witness :
    (metricsHandler (cannedWorld none (answers mixedBody))
      newResponseWriter scrape initialState).1.body =
      "binance_crypto_price\x7bsymbol=\"BTCUSDT\"\x7d 65000\n" :=
  (metricsHandler_success (cannedWorld none (answers mixedBody)) scrape initialState
    [⟨"BTCUSDT", "65000"⟩, ⟨"XXXUSDT", "abc"⟩] (by decide)).2.1.trans (by decide)

/-- C10: frame of publishing.  `updateMetrics` removes no gauge, and a symbol without a
record with a parsable price in the batch keeps exactly the gauge state it had: its value
if it had one, no gauge if it had none. -/
theorem updateMetrics_frame {F : Type} (W : World F) (ps : List Price) (σ : State F) :
    (∀ sym, (σ.priceGauge sym).isSome → ((updateMetrics W ps σ).priceGauge sym).isSome) ∧
      (∀ sym, (∀ p ∈ ps, p.Symbol = sym → ∀ v, parsePrice W p.Price ≠ .ok v) →
        (updateMetrics W ps σ).priceGauge sym = σ.priceGauge sym) := by
  refine ⟨?_, ?_⟩
  · intro sym hsome
    rw [updateMetrics_gauges]
    cases h : lastParsed W sym ps with
    | some v => rfl
    | none => exact hsome
  · intro sym hnone
    rw [updateMetrics_gauges, lastParsed_none W sym ps hnone]

/-- Witness of C10: the malformed record of `XXXUSDT` creates no gauge for it. -/
theorem updateMetrics_frame_witness :
    (updateMetrics (cannedWorld none unreachable) [⟨"XXXUSDT", "abc"⟩]
      initialState).priceGauge "XXXUSDT" = initialState.priceGauge "XXXUSDT" :=
  (updateMetrics_frame (cannedWorld none unreachable) [⟨"XXXUSDT", "abc"⟩]
    initialState).2 "XXXUSDT" (by
      intro p hp _ v hv
      rw [List.mem_singleton] at hp
      subst hp
      have hbad : parsePrice (cannedWorld none unreachable) "abc" =
          .error "strconv.ParseFloat: parsing \"abc\": invalid syntax" := by decide
      rw [hbad] at hv
      cases hv)

end BinanceExporter
